import Mathlib

/-!
# Verification of the COLMAP inverted-file retrieval core

A shallow embedding of `src/retrieval/inverted_file.h` (class `InvertedFile<N>`)
together with proofs about its operations.

Modelling conventions:
* `float`/`double` scalar values that only ever get compared (`descriptor`,
  `thresholds_`) are modelled as `ℚ`, so that comparisons stay decidable and
  executable; values combined through `std::log` / `std::sqrt`
  (`idf_weight_`, scores) are modelled as `ℝ`.
* `std::bitset<N>` is a `List Bool` of length `N` (bit `i` at position `i`).
* `uint8_t status_` is a `ℕ` kept below 256; the C++ bit operations
  `&`, `|`, `~ENTRIES_SORTED` are `Nat.land`/`Nat.lor` with the 8-bit
  complement `0xFD = 253` written out.
* `std::vector` is `List`, `std::unordered_set<int>` is `Finset ℤ`.
* `int` is `ℤ` (no arithmetic in this code comes near 32-bit overflow).
-/

namespace ColmapRetrieval

/-- One posting entry of the inverted file
(`InvertedFileEntry<N>` from `retrieval/inverted_file_entry.h`):
a 32-bit image identifier and the `N`-bit binary signature. -/
structure InvertedFileEntry where
  image_id : ℤ
  descriptor : List Bool
  deriving Repr, DecidableEq

/-- The state of `InvertedFile<N>`: `status_` (a `uint8_t` bitmask),
`idf_weight_`, the posting entries `entries_` and the Hamming-embedding
thresholds `thresholds_` (length `N`). -/
structure InvertedFile where
  status : ℕ
  idf_weight : ℝ
  entries : List InvertedFileEntry
  thresholds : List ℚ

/-- `Status::HAS_HAMMING_EMBEDDING = 0x01`. -/
def HAS_HAMMING_EMBEDDING : ℕ := 0x01

/-- `Status::ENTRIES_SORTED = 0x02`. -/
def ENTRIES_SORTED : ℕ := 0x02

/-- `Status::USABLE = 0x03`. -/
def USABLE : ℕ := 0x03

/-- `HasHammingEmbedding()`: `return status_ & HAS_HAMMING_EMBEDDING;` —
the `int` result converted to `bool` by C++ truthiness. -/
def hasHammingEmbedding (f : InvertedFile) : Bool :=
  f.status &&& HAS_HAMMING_EMBEDDING != 0

/-- `EntriesSorted()`: `return status_ & ENTRIES_SORTED;`. -/
def entriesSorted (f : InvertedFile) : Bool :=
  f.status &&& ENTRIES_SORTED != 0

/-- `IsUsable()`: `return status_ & USABLE;` — NOTE: by C++ truthiness this
is `true` as soon as EITHER of the two bits is set, although the header
comment for `IsUsable` says "the entries are sorted AND the Hamming
embedding has been computed". -/
def isUsable (f : InvertedFile) : Bool :=
  f.status &&& USABLE != 0

/-- `ConvertToBinaryDescriptor(descriptor, bin_desc)`:
`(*bin_desc)[i] = descriptor[i] > thresholds_[i]` for `i ∈ [0,N)`.
The member `thresholds_` is passed explicitly. -/
def convertToBinaryDescriptor (thresholds descriptor : List ℚ) : List Bool :=
  List.zipWith (fun d t => decide (d > t)) descriptor thresholds

/-- `AddEntry(image_id, descriptor)`: build the entry, convert the
descriptor to its binary signature, append, and clear `ENTRIES_SORTED`
(`status_ &= ~ENTRIES_SORTED`, i.e. `status_ &= 0xFD` on a `uint8_t`).
The `CHECK_GE(image_id, 0)` precondition is carried by the theorems. -/
def addEntry (f : InvertedFile) (image_id : ℤ) (descriptor : List ℚ) :
    InvertedFile :=
  { f with
    entries :=
      f.entries ++ [⟨image_id, convertToBinaryDescriptor f.thresholds descriptor⟩]
    status := f.status &&& 253 }

/-- `SortEntries()`: sort the entries in ascending order of `image_id`
and set `ENTRIES_SORTED`. -/
def sortEntries (f : InvertedFile) : InvertedFile :=
  { f with
    entries := f.entries.mergeSort (fun a b => a.image_id ≤ b.image_id)
    status := f.status ||| ENTRIES_SORTED }

/-- `ClearEntries()`: `entries_.clear(); status_ &= ~ENTRIES_SORTED;`. -/
def clearEntries (f : InvertedFile) : InvertedFile :=
  { f with entries := [], status := f.status &&& 253 }

/-- `Reset()`: status to `UNUSABLE`, idf weight to 0, entries cleared,
thresholds zeroed (`thresholds_.setZero()` keeps the length `N`). -/
def reset (f : InvertedFile) : InvertedFile :=
  { status := 0
    idf_weight := 0
    entries := []
    thresholds := List.replicate f.thresholds.length 0 }

/-- `GetImageIds(ids)`: insert the image id of every entry into the
caller's set (the set is not cleared first). -/
def getImageIds (f : InvertedFile) (ids : Finset ℤ) : Finset ℤ :=
  f.entries.foldl (fun s e => insert e.image_id s) ids

/-- `ComputeIDFWeight(num_total_images)`: early-return on empty entries,
otherwise `idf_weight_ = std::log(1.0 + num_total_images / |unique ids|)`
(the `unordered_set` size is the number of distinct image ids). -/
noncomputable def computeIDFWeight (f : InvertedFile) (num_total_images : ℤ) :
    InvertedFile :=
  if f.entries = [] then f
  else
    { f with
      idf_weight :=
        Real.log (1 + (num_total_images : ℝ) /
          ((f.entries.map InvertedFileEntry.image_id).toFinset.card : ℝ)) }

/-- Modelled from the spec: `Median` from `util/math.h` is not part of the
sources; the spec pins its tie-breaking to "lower middle for even M".
So: sort ascending and take the element at index `(length - 1) / 2`
(the exact middle for odd lengths, the lower middle for even lengths). -/
def Median (elems : List ℚ) : ℚ :=
  (elems.insertionSort (· ≤ ·)).getD ((elems.length - 1) / 2) 0

/-- `ComputeHammingEmbedding(descriptors)`: no-op when fewer than 2 rows;
otherwise `thresholds_[n] = Median(column n)` for each `n ∈ [0,N)` and
`status_ |= HAS_HAMMING_EMBEDDING`. A row of the `M × N` matrix is a
`List ℚ`; column `n` collects `descriptors(i, n)` for `i ∈ [0,M)`. -/
def computeHammingEmbedding (N : ℕ) (f : InvertedFile)
    (descriptors : List (List ℚ)) : InvertedFile :=
  if descriptors.length < 2 then f
  else
    { f with
      thresholds :=
        (List.range N).map (fun n => Median (descriptors.map (fun row => row.getD n 0)))
      status := f.status ||| HAS_HAMMING_EMBEDDING }

/-- An `(image_id, score)` pair (`ImageScore` from `retrieval/utils.h`). -/
structure ImageScore where
  image_id : ℤ
  score : ℝ

/-- The Hamming distance `(bin_descriptor ^ entry.descriptor).count()`. -/
def hammingDist (a b : List Bool) : ℕ :=
  (List.zipWith xor a b).count true

/-- Finalizing one image's votes inside `ScoreFeature`:
`score /= std::sqrt(num_image_votes); score *= squared_idf_weight;`. -/
noncomputable def finalizeScore (sqidf score : ℝ) (votes : ℕ) : ℝ :=
  score / Real.sqrt (votes : ℝ) * sqidf

/-- The entry loop of `ScoreFeature`, carrying the running
`image_score.image_id` / `image_score.score` / `num_image_votes` state.
`w` is the Hamming-distance weight functor `hamming_dist_weight_functor_`. -/
noncomputable def scoreLoop (w : ℕ → ℝ) (sqidf : ℝ) (bin : List Bool) :
    List InvertedFileEntry → ℤ → ℝ → ℕ → List ImageScore
  | [], cid, cscore, votes =>
      if 0 < votes then [⟨cid, finalizeScore sqidf cscore votes⟩] else []
  | e :: rest, cid, cscore, votes =>
      if cid < e.image_id then
        (if 0 < votes then [⟨cid, finalizeScore sqidf cscore votes⟩] else []) ++
        scoreLoop w sqidf bin rest e.image_id
          (0 + w (hammingDist bin e.descriptor)) (0 + 1)
      else
        scoreLoop w sqidf bin rest cid
          (cscore + w (hammingDist bin e.descriptor)) (votes + 1)

/-- `ScoreFeature(descriptor, image_scores)`: clear the output (the model
returns the output list, so the clear is implicit), early-return `[]`
unless `IsUsable()` and entries are non-empty, convert the query
descriptor with the current thresholds, then run the entry loop starting
from the first entry's image id with score 0 and 0 votes. -/
noncomputable def scoreFeature (w : ℕ → ℝ) (f : InvertedFile)
    (descriptor : List ℚ) : List ImageScore :=
  if isUsable f = false then []
  else
    match f.entries with
    | [] => []
    | e :: _ =>
        scoreLoop w (f.idf_weight * f.idf_weight)
          (convertToBinaryDescriptor f.thresholds descriptor)
          f.entries e.image_id 0 0

/-- The loop of `ComputeImageSelfSimilarities`: for each entry,
`self_similarities->at(entry.image_id) += squared_idf_weight`.
`std::vector::at` range-checks its index (an `int` image id is converted
to the unsigned `size_type`, so a negative id is also out of range and
throws); `none` models the thrown `std::out_of_range`. -/
def selfSimLoop (sqidf : ℝ) : List InvertedFileEntry → List ℝ → Option (List ℝ)
  | [], out => some out
  | e :: rest, out =>
      if 0 ≤ e.image_id ∧ e.image_id.toNat < out.length then
        selfSimLoop sqidf rest
          (out.set e.image_id.toNat (out.getD e.image_id.toNat 0 + sqidf))
      else none

/-- `ComputeImageSelfSimilarities(self_similarities)`: compute
`squared_idf_weight` once, then run the accumulation loop. -/
def computeImageSelfSimilarities (f : InvertedFile) (out : List ℝ) :
    Option (List ℝ) :=
  selfSimLoop (f.idf_weight * f.idf_weight) f.entries out

/-! ## Binary codec (`Read` / `Write`)

The on-disk layout (spec §4.E, and `InvertedFile::Read`/`Write` in the
source): `u8 status`, `f32 idf_weight`, `N × f32 thresholds`,
`u32 num_entries`, then per entry `u32 image_id` followed by `N/8`
signature bytes. A stream is a `List ℕ` of bytes (each `< 256`),
little-endian multi-byte fields. The IEEE-754 binary32 fields are
modelled by their 32-bit patterns (a `ℕ < 2^32`): `Read`/`Write` copy
them byte-for-byte, and the round-trip spec asks for bit-equality, so the
value↔pattern coding is irrelevant to the claim. -/

/-- The serializable state of an `InvertedFile`, with the two `f32` fields
(`idf_weight_`, `thresholds_`) represented by their bit patterns. -/
structure StoredEntry where
  image_id : ℕ
  signature : List Bool
  deriving Repr, DecidableEq

/-- The file state as seen by the codec. -/
structure StoredFile where
  status : ℕ
  idf_bits : ℕ
  threshold_bits : List ℕ
  entries : List StoredEntry
  deriving Repr, DecidableEq

/-- Little-endian bytes of a 32-bit word. -/
def u32ToBytes (x : ℕ) : List ℕ :=
  [x % 256, x / 256 % 256, x / 256 ^ 2 % 256, x / 256 ^ 3 % 256]

/-- Recompose a 32-bit word from its 4 little-endian bytes. -/
def bytesToU32 (bs : List ℕ) : ℕ :=
  bs.getD 0 0 + 256 * bs.getD 1 0 + 256 ^ 2 * bs.getD 2 0 + 256 ^ 3 * bs.getD 3 0

/-- One signature byte from 8 bits, LSB first (`std::bitset` byte layout). -/
def byteOfBits (bits : List Bool) : ℕ :=
  bits.foldr (fun b acc => (if b then 1 else 0) + 2 * acc) 0

/-- The `k` low bits of a byte, LSB first. -/
def bitsOfByte (x : ℕ) : ℕ → List Bool
  | 0 => []
  | k + 1 => decide (x % 2 = 1) :: bitsOfByte (x / 2) k

/-- Pack a bit string into bytes, 8 bits (LSB first) per byte. The class
asserts `N % 8 == 0`, so a leftover of fewer than 8 bits never occurs. -/
def packBits : List Bool → List ℕ
  | b0 :: b1 :: b2 :: b3 :: b4 :: b5 :: b6 :: b7 :: rest =>
      byteOfBits [b0, b1, b2, b3, b4, b5, b6, b7] :: packBits rest
  | _ => []

/-- Unpack bytes into a bit string, 8 bits (LSB first) per byte. -/
def unpackBits : List ℕ → List Bool
  | [] => []
  | x :: rest => bitsOfByte x 8 ++ unpackBits rest

/-- Modelled from the spec: `InvertedFileEntry<N>::Write` from
`retrieval/inverted_file_entry.h` is not part of the sources; spec §4.E
gives the entry layout `u32 image_id` then `N/8` signature bytes packed
LSB-first. -/
def writeEntry (e : StoredEntry) : List ℕ :=
  u32ToBytes e.image_id ++ packBits e.signature

/-- `InvertedFile::Write`: status byte, idf word, `N` threshold words, the
entry count (`size_t` cast to `uint32_t`, hence the `% 2^32`), then each
entry in order. -/
def writeFile (F : StoredFile) : List ℕ :=
  [F.status % 256] ++ u32ToBytes F.idf_bits ++
    (F.threshold_bits.map u32ToBytes).flatten ++
    u32ToBytes (F.entries.length % 2 ^ 32) ++
    (F.entries.map writeEntry).flatten

/-- Consume `k` bytes from the stream; `none` models hitting EOF. -/
def readBytes (k : ℕ) (s : List ℕ) : Option (List ℕ × List ℕ) :=
  if k ≤ s.length then some (s.take k, s.drop k) else none

/-- Consume one byte (`u8`). -/
def readU8 : List ℕ → Option (ℕ × List ℕ)
  | [] => none
  | b :: s => some (b, s)

/-- Consume a little-endian `u32`. -/
def readU32 (s : List ℕ) : Option (ℕ × List ℕ) :=
  (readBytes 4 s).map (fun p => (bytesToU32 p.1, p.2))

/-- Consume `k` little-endian `u32` words. -/
def readU32List : ℕ → List ℕ → Option (List ℕ × List ℕ)
  | 0, s => some ([], s)
  | k + 1, s => do
      let (x, s1) ← readU32 s
      let (xs, s2) ← readU32List k s1
      some (x :: xs, s2)

/-- Modelled from the spec: `InvertedFileEntry<N>::Read`, the inverse of
`writeEntry` (spec §4.E): `u32 image_id`, then `N/8` signature bytes. -/
def readEntry (N : ℕ) (s : List ℕ) : Option (StoredEntry × List ℕ) := do
  let (id, s1) ← readU32 s
  let (sig, s2) ← readBytes (N / 8) s1
  some (⟨id, unpackBits sig⟩, s2)

/-- Consume `k` consecutive entries. -/
def readEntryList (N : ℕ) : ℕ → List ℕ → Option (List StoredEntry × List ℕ)
  | 0, s => some ([], s)
  | k + 1, s => do
      let (e, s1) ← readEntry N s
      let (es, s2) ← readEntryList N k s1
      some (e :: es, s2)

/-- `InvertedFile::Read`: status byte, idf word, `N` threshold words, the
`u32` entry count, then exactly that many entries. -/
def readFile (N : ℕ) (s : List ℕ) : Option (StoredFile × List ℕ) := do
  let (st, s1) ← readU8 s
  let (idf, s2) ← readU32 s1
  let (thr, s3) ← readU32List N s2
  let (cnt, s4) ← readU32 s3
  let (es, s5) ← readEntryList N cnt s4
  some (⟨st, idf, thr, es⟩, s5)

/-- Well-formedness of a stored file for code length `N`: every field fits
its on-disk width and the signature has exactly `N` bits (`8 ∣ N` is the
class's static assertion). -/
def WFStored (N : ℕ) (F : StoredFile) : Prop :=
  F.status < 256 ∧ F.idf_bits < 2 ^ 32 ∧
    F.threshold_bits.length = N ∧ (∀ t ∈ F.threshold_bits, t < 2 ^ 32) ∧
    F.entries.length < 2 ^ 32 ∧
    (∀ e ∈ F.entries, e.image_id < 2 ^ 32 ∧ e.signature.length = N)

instance (N : ℕ) (F : StoredFile) : Decidable (WFStored N F) := by
  unfold WFStored; infer_instance

/-! ## Helper lemmas on the status bitmask -/

/-- Masking with `0xFD` clears bit 1. -/
lemma and253_and2 (s : ℕ) : s &&& 253 &&& 2 = 0 := by
  rw [Nat.and_assoc, show (253 &&& 2 : ℕ) = 0 from rfl, Nat.and_zero]

/-- Masking with `0xFD` leaves bit 0 alone. -/
lemma and253_and1 (s : ℕ) : s &&& 253 &&& 1 = s &&& 1 := by
  rw [Nat.and_assoc, show (253 &&& 1 : ℕ) = 1 from rfl]

/-- Setting bit 0 makes bit 0 set. -/
lemma or1_and1_ne_zero (s : ℕ) : (s ||| 1) &&& 1 ≠ 0 := by
  have h := Nat.testBit_or s 1 0
  simp [Nat.testBit_zero] at h
  simp [Nat.and_one_is_mod]

/-! ## C10: ClearEntries vs Reset -/

/-- C10: `ClearEntries` empties the entries and clears `ENTRIES_SORTED`
while leaving the `HAS_HE` bit, `idf_weight` and all thresholds
untouched, whereas `Reset` zeroes status, idf weight, entries and
thresholds. -/
theorem clearEntries_frame (f : InvertedFile) :
    (clearEntries f).entries = [] ∧
    entriesSorted (clearEntries f) = false ∧
    hasHammingEmbedding (clearEntries f) = hasHammingEmbedding f ∧
    (clearEntries f).idf_weight = f.idf_weight ∧
    (clearEntries f).thresholds = f.thresholds ∧
    (reset f).status = 0 ∧ (reset f).idf_weight = 0 ∧
    (reset f).entries = [] ∧
    (reset f).thresholds = List.replicate f.thresholds.length 0 := by
  refine ⟨rfl, ?_, ?_, rfl, rfl, rfl, rfl, rfl, rfl⟩
  · simp [entriesSorted, clearEntries, ENTRIES_SORTED, and253_and2]
  · simp [hasHammingEmbedding, clearEntries, HAS_HAMMING_EMBEDDING, and253_and1]

/-! ## C4: AddEntry -/

/-- The signature of `ConvertToBinaryDescriptor`, bit by bit. -/
lemma convert_getD (thresholds descriptor : List ℚ) (i : ℕ)
    (h1 : i < descriptor.length) (h2 : i < thresholds.length) :
    (convertToBinaryDescriptor thresholds descriptor).getD i false =
      decide (descriptor.getD i 0 > thresholds.getD i 0) := by
  unfold convertToBinaryDescriptor
  rw [List.getD_eq_getElem, List.getD_eq_getElem, List.getD_eq_getElem,
    List.getElem_zipWith]
  · simpa [List.length_zipWith] using ⟨h1, h2⟩

/-- C4: `AddEntry` appends exactly one entry whose signature has bit `i`
equal to `descriptor[i] > thresholds[i]`, leaves the previously stored
entries (and the rest of the state) unchanged, and clears
`ENTRIES_SORTED`, so `EntriesSorted()` is `false` afterwards. -/
theorem addEntry_appends (f : InvertedFile) (image_id : ℤ)
    (descriptor : List ℚ) (_hid : 0 ≤ image_id) :
    (addEntry f image_id descriptor).entries =
      f.entries ++
        [⟨image_id, convertToBinaryDescriptor f.thresholds descriptor⟩] ∧
    (∀ i, i < descriptor.length → i < f.thresholds.length →
      (convertToBinaryDescriptor f.thresholds descriptor).getD i false =
        decide (descriptor.getD i 0 > f.thresholds.getD i 0)) ∧
    entriesSorted (addEntry f image_id descriptor) = false ∧
    (addEntry f image_id descriptor).idf_weight = f.idf_weight ∧
    (addEntry f image_id descriptor).thresholds = f.thresholds := by
  refine ⟨rfl, fun i hi1 hi2 => convert_getD _ _ i hi1 hi2, ?_, rfl, rfl⟩
  simp [entriesSorted, addEntry, ENTRIES_SORTED, and253_and2]

/-- Witness for C4 at a concrete input: `N = 8`, zero thresholds,
descriptor `[1, -1, 0, 2, 5, -3, 1, 0]`, image id 7. -/
theorem addEntry_appends_witness :
    (0 : ℤ) ≤ 7 ∧
    ((addEntry ⟨0, 0, [], List.replicate 8 0⟩ 7 [1, -1, 0, 2, 5, -3, 1, 0]).entries =
        [⟨7, convertToBinaryDescriptor (List.replicate 8 0) [1, -1, 0, 2, 5, -3, 1, 0]⟩] ∧
      (∀ i, i < ([1, -1, 0, 2, 5, -3, 1, 0] : List ℚ).length →
        i < (List.replicate 8 (0 : ℚ)).length →
        (convertToBinaryDescriptor (List.replicate 8 0) [1, -1, 0, 2, 5, -3, 1, 0]).getD i false =
          decide (([1, -1, 0, 2, 5, -3, 1, 0] : List ℚ).getD i 0 >
            (List.replicate 8 (0 : ℚ)).getD i 0)) ∧
      entriesSorted (addEntry ⟨0, 0, [], List.replicate 8 0⟩ 7 [1, -1, 0, 2, 5, -3, 1, 0]) = false ∧
      (addEntry ⟨0, 0, [], List.replicate 8 0⟩ 7 [1, -1, 0, 2, 5, -3, 1, 0]).idf_weight = 0 ∧
      (addEntry ⟨0, 0, [], List.replicate 8 0⟩ 7 [1, -1, 0, 2, 5, -3, 1, 0]).thresholds =
        List.replicate 8 0) :=
  ⟨by norm_num, addEntry_appends ⟨0, 0, [], List.replicate 8 0⟩ 7 _ (by norm_num)⟩

/-! ## C5 / C6: ComputeHammingEmbedding -/

/-- C5: `ComputeHammingEmbedding` with fewer than 2 descriptor rows
leaves the whole file state unchanged; with `M ≥ 2` rows it sets
`thresholds[n]` to the median of column `n` for every `n ∈ [0,N)` and
sets the `HAS_HE` status bit (everything else untouched). -/
theorem computeHammingEmbedding_cases (N : ℕ) (f : InvertedFile)
    (descriptors : List (List ℚ)) :
    (descriptors.length < 2 → computeHammingEmbedding N f descriptors = f) ∧
    (2 ≤ descriptors.length →
      (computeHammingEmbedding N f descriptors).thresholds.length = N ∧
      (∀ n, n < N →
        (computeHammingEmbedding N f descriptors).thresholds.getD n 0 =
          Median (descriptors.map (fun row => row.getD n 0))) ∧
      hasHammingEmbedding (computeHammingEmbedding N f descriptors) = true ∧
      (computeHammingEmbedding N f descriptors).entries = f.entries ∧
      (computeHammingEmbedding N f descriptors).idf_weight = f.idf_weight) := by
  constructor
  · intro h
    simp [computeHammingEmbedding, h]
  · intro h
    have hlt : ¬ descriptors.length < 2 := by omega
    refine ⟨?_, ?_, ?_, ?_, ?_⟩
    · simp [computeHammingEmbedding, hlt]
    · intro n hn
      simp only [computeHammingEmbedding, if_neg hlt]
      rw [List.getD_eq_getElem _ _ (by simpa using hn), List.getElem_map,
        List.getElem_range]
    · simp only [hasHammingEmbedding, computeHammingEmbedding, if_neg hlt,
        HAS_HAMMING_EMBEDDING, bne_iff_ne, ne_eq, decide_eq_true_eq]
      exact or1_and1_ne_zero f.status
    · simp only [computeHammingEmbedding, if_neg hlt]
    · simp only [computeHammingEmbedding, if_neg hlt]

/-- Witness for C5: the no-op branch on a single-row matrix, and the
learning branch on a two-row matrix with `N = 8`. -/
theorem computeHammingEmbedding_cases_witness :
    (computeHammingEmbedding 8 ⟨0, 0, [], List.replicate 8 0⟩
        [List.replicate 8 1] = ⟨0, 0, [], List.replicate 8 0⟩) ∧
    ((computeHammingEmbedding 8 ⟨0, 0, [], List.replicate 8 0⟩
        [List.replicate 8 1, List.replicate 8 3]).thresholds.length = 8 ∧
      hasHammingEmbedding (computeHammingEmbedding 8 ⟨0, 0, [], List.replicate 8 0⟩
        [List.replicate 8 1, List.replicate 8 3]) = true) :=
  ⟨(computeHammingEmbedding_cases 8 ⟨0, 0, [], List.replicate 8 0⟩
      [List.replicate 8 1]).1 (by norm_num),
   ⟨((computeHammingEmbedding_cases 8 ⟨0, 0, [], List.replicate 8 0⟩
      [List.replicate 8 1, List.replicate 8 3]).2 (by norm_num)).1,
    ((computeHammingEmbedding_cases 8 ⟨0, 0, [], List.replicate 8 0⟩
      [List.replicate 8 1, List.replicate 8 3]).2 (by norm_num)).2.2.1⟩⟩

/-- C6: with 4 rows whose column 0 is `[-1, 0, 2, 3]`, the learned
threshold for column 0 is the lower middle element, `0`. -/
theorem median_even_lower_middle :
    (computeHammingEmbedding 8 ⟨0, 0, [], List.replicate 8 0⟩
        [-1 :: List.replicate 7 0, 0 :: List.replicate 7 0,
          2 :: List.replicate 7 0, 3 :: List.replicate 7 0]).thresholds.getD 0 0
      = 0 ∧
    Median [-1, 0, 2, 3] = 0 := by
  constructor
  · decide
  · decide

/-! ## C7: ComputeIDFWeight -/

/-- C7: `ComputeIDFWeight` changes nothing on a file with no entries;
on non-empty entries it sets `idf_weight` to
`ln(1 + num_total_images / U)` with `U` the number of distinct image ids,
and for `num_total_images ≥ 0` the result is non-negative. -/
theorem computeIDFWeight_cases (f : InvertedFile) (num_total_images : ℤ) :
    (f.entries = [] → computeIDFWeight f num_total_images = f) ∧
    (f.entries ≠ [] →
      (computeIDFWeight f num_total_images).idf_weight =
        Real.log (1 + (num_total_images : ℝ) /
          ((f.entries.map InvertedFileEntry.image_id).toFinset.card : ℝ)) ∧
      (0 ≤ num_total_images →
        0 ≤ (computeIDFWeight f num_total_images).idf_weight) ∧
      (computeIDFWeight f num_total_images).entries = f.entries ∧
      (computeIDFWeight f num_total_images).status = f.status ∧
      (computeIDFWeight f num_total_images).thresholds = f.thresholds) := by
  constructor
  · intro h
    simp [computeIDFWeight, h]
  · intro h
    refine ⟨by simp [computeIDFWeight, h], ?_, by simp [computeIDFWeight, h],
      by simp [computeIDFWeight, h], by simp [computeIDFWeight, h]⟩
    intro hn
    have hcard : 0 < (f.entries.map InvertedFileEntry.image_id).toFinset.card := by
      obtain ⟨e, he⟩ := List.exists_mem_of_ne_nil f.entries h
      exact Finset.card_pos.mpr ⟨e.image_id, by simp; exact ⟨e, he, rfl⟩⟩
    simp only [computeIDFWeight, if_neg h]
    refine Real.log_nonneg ?_
    have : 0 ≤ (num_total_images : ℝ) /
        ((f.entries.map InvertedFileEntry.image_id).toFinset.card : ℝ) :=
      div_nonneg (by exact_mod_cast hn) (by positivity)
    linarith

/-- Witness for C7: the no-op branch on an empty file, and the formula
and non-negativity on a one-entry file with `num_total_images = 10`. -/
theorem computeIDFWeight_cases_witness :
    (computeIDFWeight ⟨0, 5, [], []⟩ 10 = ⟨0, 5, [], []⟩) ∧
    ((computeIDFWeight ⟨0, 0, [⟨3, []⟩], []⟩ 10).idf_weight =
        Real.log (1 + (10 : ℝ) /
          ((([⟨3, []⟩] : List InvertedFileEntry).map
            InvertedFileEntry.image_id).toFinset.card : ℝ)) ∧
      0 ≤ (computeIDFWeight ⟨0, 0, [⟨3, []⟩], []⟩ 10).idf_weight) :=
  ⟨(computeIDFWeight_cases ⟨0, 5, [], []⟩ 10).1 rfl,
   ⟨((computeIDFWeight_cases ⟨0, 0, [⟨3, []⟩], []⟩ 10).2 (by simp)).1,
    ((computeIDFWeight_cases ⟨0, 0, [⟨3, []⟩], []⟩ 10).2 (by simp)).2.1
      (by norm_num)⟩⟩

/-! ## C1: the `IsUsable` guard of `ScoreFeature`

`IsUsable()` returns `status_ & USABLE` converted to `bool`, which is
`true` as soon as EITHER `HAS_HAMMING_EMBEDDING` or `ENTRIES_SORTED` is
set — contradicting the header comment on `IsUsable` ("the entries are
sorted and the Hamming embedding has been computed"). Consequently
`ScoreFeature` does emit scores on a file with only `ENTRIES_SORTED`
set. The weight functor below is the spec's example
`w(d) = max(0, 1 - d/4)`. -/

/-- C1 failing input: status `0x02` only (`ENTRIES_SORTED` set,
`HAS_HE` clear), one entry — `IsUsable()` is `true` and `ScoreFeature`
emits a non-empty score list. -/
theorem scoreFeature_single_status_bit_emits :
    isUsable ⟨2, 1, [⟨0, List.replicate 8 false⟩], List.replicate 8 0⟩ = true ∧
    hasHammingEmbedding
      ⟨2, 1, [⟨0, List.replicate 8 false⟩], List.replicate 8 0⟩ = false ∧
    entriesSorted
      ⟨2, 1, [⟨0, List.replicate 8 false⟩], List.replicate 8 0⟩ = true ∧
    scoreFeature (fun d => max 0 (1 - (d : ℝ) / 4))
      ⟨2, 1, [⟨0, List.replicate 8 false⟩], List.replicate 8 0⟩
      (List.replicate 8 0) ≠ [] := by
  refine ⟨rfl, rfl, rfl, ?_⟩
  simp [scoreFeature, scoreLoop, isUsable, USABLE]

/-! ## C3: ComputeImageSelfSimilarities -/

/-- `getD` after `set`, for in-range reads. -/
lemma getD_set_eq (out : List ℝ) (j i : ℕ) (v : ℝ) (hi : i < out.length) :
    (out.set j v).getD i 0 = if j = i then v else out.getD i 0 := by
  by_cases hij : j = i
  · subst hij
    rw [List.getD_eq_getElem _ _ (by simpa using hi),
      List.getD_eq_getElem _ _ hi]
    simp [List.getElem_set]
  · rw [List.getD_eq_getElem _ _ (by simpa using hi),
      List.getD_eq_getElem _ _ hi]
    simp [List.getElem_set, hij]

/-- The in-range accumulation of `selfSimLoop`: each slot `i` of the
output gains `sqidf` once per entry with image id `i`. -/
lemma selfSimLoop_in_range (sqidf : ℝ) :
    ∀ (l : List InvertedFileEntry) (out : List ℝ),
      (∀ e ∈ l, 0 ≤ e.image_id ∧ e.image_id.toNat < out.length) →
      ∃ out', selfSimLoop sqidf l out = some out' ∧
        out'.length = out.length ∧
        ∀ i, i < out.length → out'.getD i 0 = out.getD i 0 +
          ((l.filter (fun e => e.image_id = (i : ℤ))).length : ℝ) * sqidf
  | [], out, _ => ⟨out, rfl, rfl, fun i _ => by simp⟩
  | e :: rest, out, h => by
      obtain ⟨hid, hlt⟩ := h e (by simp)
      have hcond : 0 ≤ e.image_id ∧ e.image_id.toNat < out.length := ⟨hid, hlt⟩
      have hlen1 : (out.set e.image_id.toNat
          (out.getD e.image_id.toNat 0 + sqidf)).length = out.length := by
        simp
      obtain ⟨out', hloop, hlen, hval⟩ :=
        selfSimLoop_in_range sqidf rest
          (out.set e.image_id.toNat (out.getD e.image_id.toNat 0 + sqidf))
          (fun e' he' => by
            obtain ⟨h1, h2⟩ := h e' (List.mem_cons_of_mem _ he')
            exact ⟨h1, by omega⟩)
      refine ⟨out', ?_, by omega, ?_⟩
      · simp only [selfSimLoop, if_pos hcond]
        exact hloop
      · intro i hi
        have hgetD1 : (out.set e.image_id.toNat
              (out.getD e.image_id.toNat 0 + sqidf)).getD i 0 =
            out.getD i 0 + (if e.image_id = (i : ℤ) then sqidf else 0) := by
          rw [getD_set_eq _ _ _ _ hi]
          by_cases hij : e.image_id.toNat = i
          · have heq : e.image_id = (i : ℤ) := by omega
            simp [hij, heq]
          · have hne : ¬ e.image_id = (i : ℤ) := by omega
            simp [hij, hne]
        have hcnt : ((e :: rest).filter (fun e' => e'.image_id = (i : ℤ))).length =
            (rest.filter (fun e' => e'.image_id = (i : ℤ))).length +
              (if e.image_id = (i : ℤ) then 1 else 0) := by
          by_cases hcase : e.image_id = (i : ℤ) <;>
            simp [List.filter_cons, hcase]
        rw [hval i (by omega), hgetD1, hcnt]
        by_cases hcase : e.image_id = (i : ℤ)
        · simp [hcase]
          ring
        · simp [hcase]

/-- Once any entry's image id is out of range (or negative), the loop
reaches it and `std::vector::at` raises: the result is `none`. -/
lemma selfSimLoop_out_of_range (sqidf : ℝ) :
    ∀ (l : List InvertedFileEntry) (out : List ℝ),
      (∃ e ∈ l, e.image_id < 0 ∨ out.length ≤ e.image_id.toNat) →
      selfSimLoop sqidf l out = none
  | [], _, h => by simp at h
  | e :: rest, out, h => by
      by_cases hcond : 0 ≤ e.image_id ∧ e.image_id.toNat < out.length
      · obtain ⟨e', he', hbad⟩ := h
        rcases List.mem_cons.mp he' with rfl | he'
        · omega
        · have : selfSimLoop sqidf rest
              (out.set e.image_id.toNat (out.getD e.image_id.toNat 0 + sqidf)) = none :=
            selfSimLoop_out_of_range sqidf rest _ ⟨e', he', by simpa using hbad⟩
          simpa [selfSimLoop, if_pos hcond] using this
      · simp [selfSimLoop, if_neg hcond]

/-- C3 counterexample: the claim says an out-of-range image id "is not
detected by the core", but the code indexes with `std::vector::at`,
which range-checks: with one entry of image id 1 and an output vector of
length 1 the operation raises `std::out_of_range` (modelled as `none`)
instead of proceeding undetected. -/
theorem selfSimilarities_detects_out_of_range :
    computeImageSelfSimilarities ⟨0, 1, [⟨1, []⟩], []⟩ [0] = none := by
  simp [computeImageSelfSimilarities, selfSimLoop]

/-- C3 (amended): for each entry `e`, `idf_weight²` is added to
`out[e.image_id]` — slot `i` gains `k · idf²` for `k` entries of image
`i` — provided every image id is inside the output container; an image
id at or beyond the container's size (or negative) IS detected:
`std::vector::at` raises `std::out_of_range`. -/
theorem selfSimilarities_accumulates (f : InvertedFile) (out : List ℝ) :
    ((∀ e ∈ f.entries, 0 ≤ e.image_id ∧ e.image_id.toNat < out.length) →
      ∃ out', computeImageSelfSimilarities f out = some out' ∧
        out'.length = out.length ∧
        ∀ i, i < out.length → out'.getD i 0 = out.getD i 0 +
          ((f.entries.filter (fun e => e.image_id = (i : ℤ))).length : ℝ) *
            (f.idf_weight * f.idf_weight)) ∧
    ((∃ e ∈ f.entries, e.image_id < 0 ∨ out.length ≤ e.image_id.toNat) →
      computeImageSelfSimilarities f out = none) :=
  ⟨fun h => selfSimLoop_in_range _ f.entries out h,
   fun h => selfSimLoop_out_of_range _ f.entries out h⟩

/-- Witness for C3's amended theorem: a two-entry file (both image id 0)
with `idf = 1` over a length-1 output accumulates `2·idf²`, and a file
whose entry has image id 5 over a length-1 output errors. -/
theorem selfSimilarities_accumulates_witness :
    (∃ out', computeImageSelfSimilarities
        ⟨0, 1, [⟨0, []⟩, ⟨0, []⟩], []⟩ [0] = some out' ∧
      out'.length = 1 ∧
      ∀ i, i < 1 → out'.getD i 0 = ([(0 : ℝ)].getD i 0) +
        ((([⟨0, []⟩, ⟨0, []⟩] : List InvertedFileEntry).filter
          (fun e => e.image_id = (i : ℤ))).length : ℝ) * (1 * 1)) ∧
    computeImageSelfSimilarities ⟨0, 1, [⟨5, []⟩], []⟩ [0] = none :=
  ⟨(selfSimilarities_accumulates ⟨0, 1, [⟨0, []⟩, ⟨0, []⟩], []⟩ [0]).1
      (by intro e he; fin_cases he <;> simp),
   (selfSimilarities_accumulates ⟨0, 1, [⟨5, []⟩], []⟩ [0]).2
      ⟨⟨5, []⟩, by simp, by simp⟩⟩

/-! ## C2 / C9: ScoreFeature against the per-image closed form -/

/-- The weight one entry contributes for a query signature `bin`. -/
noncomputable def entryWeight (w : ℕ → ℝ) (bin : List Bool)
    (e : InvertedFileEntry) : ℝ :=
  w (hammingDist bin e.descriptor)

/-- The spec-side closed form of `ScoreFeature` (spec §4.C): one pair per
distinct image id, in order; for an image whose entries are `e₁…e_k`,
the score is `(Σⱼ w(dⱼ)) / √k · idf²`. -/
noncomputable def scoreFeatureSpec (w : ℕ → ℝ) (sqidf : ℝ) (bin : List Bool)
    (entries : List InvertedFileEntry) : List ImageScore :=
  (entries.map InvertedFileEntry.image_id).dedup.map (fun id =>
    ⟨id, ((entries.filter (fun e => e.image_id = id)).map (entryWeight w bin)).sum /
      Real.sqrt (((entries.filter (fun e => e.image_id = id)).length : ℕ) : ℝ) *
        sqidf⟩)

/-- `dedup` of a constant block followed by a list not containing the
constant. -/
lemma dedup_append_const (a : ℤ) :
    ∀ (xs ys : List ℤ), xs ≠ [] → (∀ x ∈ xs, x = a) → a ∉ ys →
      (xs ++ ys).dedup = a :: ys.dedup
  | [], _, hne, _, _ => absurd rfl hne
  | x :: xs, ys, _, hconst, hys => by
      have hxa : x = a := hconst x (by simp)
      by_cases hxs : xs = []
      · subst hxs
        rw [hxa]
        simpa using List.dedup_cons_of_not_mem hys
      · obtain ⟨y, hy⟩ := List.exists_mem_of_ne_nil xs hxs
        have hmem : x ∈ xs ++ ys := by
          have hyx : y = x := (hconst y (by simp [hy])).trans hxa.symm
          exact List.mem_append_left _ (hyx ▸ hy)
        rw [List.cons_append, List.dedup_cons_of_mem hmem]
        exact dedup_append_const a xs ys hxs
          (fun z hz => hconst z (by simp [hz])) hys

/-- Splitting the closed form at a finished group: a non-empty block of
entries all with image id `cid`, followed by entries with larger ids,
contributes its pair first. -/
lemma scoreFeatureSpec_cons_group (w : ℕ → ℝ) (sqidf : ℝ) (bin : List Bool)
    (seen l : List InvertedFileEntry) (cid : ℤ) (hne : seen ≠ [])
    (hconst : ∀ e ∈ seen, e.image_id = cid)
    (hgt : ∀ e ∈ l, cid < e.image_id) :
    scoreFeatureSpec w sqidf bin (seen ++ l) =
      ⟨cid, (seen.map (entryWeight w bin)).sum /
        Real.sqrt ((seen.length : ℕ) : ℝ) * sqidf⟩ ::
      scoreFeatureSpec w sqidf bin l := by
  have hids : ((seen ++ l).map InvertedFileEntry.image_id).dedup =
      cid :: (l.map InvertedFileEntry.image_id).dedup := by
    rw [List.map_append]
    refine dedup_append_const cid _ _ ?_ ?_ ?_
    · simpa using hne
    · intro x hx
      obtain ⟨e, he, rfl⟩ := List.mem_map.mp hx
      exact hconst e he
    · intro hmem
      obtain ⟨e, he, heq⟩ := List.mem_map.mp hmem
      exact absurd heq (ne_of_gt (hgt e he))
  have hfilter_cid : (seen ++ l).filter (fun e => e.image_id = cid) = seen := by
    rw [List.filter_append]
    have h1 : seen.filter (fun e => e.image_id = cid) = seen :=
      List.filter_eq_self.mpr (fun e he => by simp [hconst e he])
    have h2 : l.filter (fun e => e.image_id = cid) = [] := by
      rw [List.filter_eq_nil_iff]
      intro e he
      simp [ne_of_gt (hgt e he)]
    rw [h1, h2, List.append_nil]
  have hfilter_l : ∀ b ∈ (l.map InvertedFileEntry.image_id).dedup,
      (seen ++ l).filter (fun e => e.image_id = b) =
        l.filter (fun e => e.image_id = b) := by
    intro b hb
    obtain ⟨e, he, rfl⟩ := List.mem_map.mp (List.mem_dedup.mp hb)
    rw [List.filter_append]
    have h1 : seen.filter (fun e' => e'.image_id = e.image_id) = [] := by
      rw [List.filter_eq_nil_iff]
      intro e' he'
      simp [hconst e' he']
      exact ne_of_lt (hgt e he)
    rw [h1, List.nil_append]
  unfold scoreFeatureSpec
  rw [hids, List.map_cons, hfilter_cid]
  congr 1
  refine List.map_congr_left (fun b hb => ?_)
  rw [hfilter_l b hb]

/-- The central invariant of the `ScoreFeature` sweep: if `seen` is the
already-accumulated part of the current image's group (all with id
`cid`) and `l` is the sorted remainder with ids `≥ cid`, the loop
produces exactly the closed form of `seen ++ l`. -/
lemma scoreLoop_grouped (w : ℕ → ℝ) (sqidf : ℝ) (bin : List Bool) :
    ∀ (l seen : List InvertedFileEntry) (cid : ℤ),
      (∀ e ∈ seen, e.image_id = cid) →
      (∀ e ∈ l, cid ≤ e.image_id) →
      l.Pairwise (fun a b => a.image_id ≤ b.image_id) →
      scoreLoop w sqidf bin l cid
          ((seen.map (entryWeight w bin)).sum) seen.length =
        scoreFeatureSpec w sqidf bin (seen ++ l)
  | [], seen, cid, hconst, _, _ => by
      rcases hseen : seen with _ | ⟨s, ss⟩
      · simp [scoreLoop, scoreFeatureSpec]
      · rw [← hseen]
        have hne : seen ≠ [] := by simp [hseen]
        have hpos : 0 < seen.length := by simp [hseen]
        have hsplit := scoreFeatureSpec_cons_group w sqidf bin seen [] cid hne
          hconst (by simp)
        rw [List.append_nil] at hsplit ⊢
        rw [hsplit]
        simp only [scoreLoop, if_pos hpos, finalizeScore, scoreFeatureSpec]
        simp
  | e :: rest, seen, cid, hconst, hle, hsorted => by
      have hrest_sorted : rest.Pairwise (fun a b => a.image_id ≤ b.image_id) :=
        (List.pairwise_cons.mp hsorted).2
      have he_rest : ∀ e' ∈ rest, e.image_id ≤ e'.image_id :=
        (List.pairwise_cons.mp hsorted).1
      by_cases hlt : cid < e.image_id
      · have hmain :
            scoreLoop w sqidf bin rest e.image_id
                (([e].map (entryWeight w bin)).sum) [e].length =
              scoreFeatureSpec w sqidf bin ([e] ++ rest) :=
          scoreLoop_grouped w sqidf bin rest [e] e.image_id
            (by simp) he_rest hrest_sorted
        have hgt : ∀ e' ∈ e :: rest, cid < e'.image_id := by
          intro e' he'
          rcases List.mem_cons.mp he' with rfl | hmem
          · exact hlt
          · exact lt_of_lt_of_le hlt (he_rest e' hmem)
        rcases hseen : seen with _ | ⟨s, ss⟩
        · simp only [scoreLoop, if_pos hlt, hseen, List.length_nil,
            lt_irrefl, if_neg (lt_irrefl 0), List.nil_append,
            List.map_nil, List.sum_nil]
          simpa [entryWeight] using hmain
        · rw [← hseen]
          have hne : seen ≠ [] := by simp [hseen]
          have hpos : 0 < seen.length := by simp [hseen]
          rw [scoreFeatureSpec_cons_group w sqidf bin seen (e :: rest) cid hne
            hconst hgt]
          simp only [scoreLoop, if_pos hlt, if_pos hpos, finalizeScore]
          simpa [entryWeight] using hmain
      · have heq : e.image_id = cid :=
          le_antisymm (not_lt.mp hlt) (hle e (by simp))
        have hmain :
            scoreLoop w sqidf bin rest cid
                (((seen ++ [e]).map (entryWeight w bin)).sum)
                (seen ++ [e]).length =
              scoreFeatureSpec w sqidf bin ((seen ++ [e]) ++ rest) :=
          scoreLoop_grouped w sqidf bin rest (seen ++ [e]) cid
            (by
              intro e' he'
              rcases List.mem_append.mp he' with hmem | hmem
              · exact hconst e' hmem
              · simpa [List.mem_singleton.mp hmem] using heq)
            (fun e' he' => hle e' (by simp [he'])) hrest_sorted
        simp only [scoreLoop, if_neg hlt]
        rw [List.append_cons seen e rest]
        convert hmain using 2
        · simp [entryWeight]
        · simp
  termination_by l => l.length

/-- If bit 1 is set then the `USABLE` mask is non-zero. -/
lemma and3_ne_zero_of_and2 (s : ℕ) (h : s &&& 2 ≠ 0) : s &&& 3 ≠ 0 := by
  intro h3
  apply h
  rw [show s &&& 2 = s &&& 3 &&& 2 by
    rw [Nat.and_assoc, show (3 &&& 2 : ℕ) = 2 from rfl], h3, Nat.zero_and]

/-- A file whose `ENTRIES_SORTED` bit is set passes the (buggy)
`IsUsable()` guard. -/
lemma isUsable_of_entriesSorted (f : InvertedFile)
    (hes : entriesSorted f = true) : isUsable f = true := by
  simp only [entriesSorted, ENTRIES_SORTED, bne_iff_ne, ne_eq] at hes
  simp only [isUsable, USABLE, bne_iff_ne, ne_eq]
  simpa using and3_ne_zero_of_and2 f.status hes

/-- `ScoreFeature` equals the closed form on a sorted, non-empty file
that passes the guard. -/
lemma scoreFeature_eq_spec (w : ℕ → ℝ) (f : InvertedFile)
    (descriptor : List ℚ) (hes : entriesSorted f = true)
    (hne : f.entries ≠ [])
    (hsorted : f.entries.Pairwise (fun a b => a.image_id ≤ b.image_id)) :
    scoreFeature w f descriptor =
      scoreFeatureSpec w (f.idf_weight * f.idf_weight)
        (convertToBinaryDescriptor f.thresholds descriptor) f.entries := by
  have hus : isUsable f = true := isUsable_of_entriesSorted f hes
  rcases hent : f.entries with _ | ⟨e, rest⟩
  · exact absurd hent hne
  · have hsorted' : (e :: rest).Pairwise
        (fun a b => a.image_id ≤ b.image_id) := hent ▸ hsorted
    have hge : ∀ e' ∈ e :: rest, e.image_id ≤ e'.image_id := by
      intro e' he'
      rcases List.mem_cons.mp he' with rfl | hmem
      · exact le_refl _
      · exact (List.pairwise_cons.mp hsorted').1 e' hmem
    have hmain := scoreLoop_grouped w (f.idf_weight * f.idf_weight)
      (convertToBinaryDescriptor f.thresholds descriptor)
      (e :: rest) [] e.image_id (by simp) hge hsorted'
    simp only [List.map_nil, List.sum_nil, List.length_nil,
      List.nil_append] at hmain
    simp only [scoreFeature, hus, Bool.true_eq_false, if_neg
      (by simp : ¬ (true : Bool) = false), hent]
    exact hmain

/-- The image ids of the closed form are the deduplicated entry ids. -/
lemma scoreFeatureSpec_map_ids (w : ℕ → ℝ) (sqidf : ℝ) (bin : List Bool)
    (entries : List InvertedFileEntry) :
    (scoreFeatureSpec w sqidf bin entries).map ImageScore.image_id =
      (entries.map InvertedFileEntry.image_id).dedup := by
  unfold scoreFeatureSpec
  rw [List.map_map]
  exact List.map_id _

/-- C2: on a Usable file (both status bits set) with non-empty entries
sorted ascending by image id, `ScoreFeature` equals the closed form: one
pair per distinct image id, in strictly ascending id order, where the
score of an image with entries `e₁…e_k` is
`(Σⱼ w(popcount(query_sig XOR eⱼ.sig))) / √k · idf²`. -/
theorem scoreFeature_closed_form (w : ℕ → ℝ) (f : InvertedFile)
    (descriptor : List ℚ) (_hhe : hasHammingEmbedding f = true)
    (hes : entriesSorted f = true) (hne : f.entries ≠ [])
    (hsorted : f.entries.Pairwise (fun a b => a.image_id ≤ b.image_id)) :
    scoreFeature w f descriptor =
      scoreFeatureSpec w (f.idf_weight * f.idf_weight)
        (convertToBinaryDescriptor f.thresholds descriptor) f.entries ∧
    (scoreFeature w f descriptor).map ImageScore.image_id =
      (f.entries.map InvertedFileEntry.image_id).dedup ∧
    ((scoreFeature w f descriptor).map ImageScore.image_id).Pairwise (· < ·) := by
  have h1 := scoreFeature_eq_spec w f descriptor hes hne hsorted
  have h2 : (scoreFeature w f descriptor).map ImageScore.image_id =
      (f.entries.map InvertedFileEntry.image_id).dedup := by
    rw [h1, scoreFeatureSpec_map_ids]
  refine ⟨h1, h2, ?_⟩
  rw [h2]
  have hids : (f.entries.map InvertedFileEntry.image_id).Pairwise (· ≤ ·) :=
    hsorted.map _ (fun a b hab => hab)
  have hle : (f.entries.map InvertedFileEntry.image_id).dedup.Pairwise (· ≤ ·) :=
    hids.sublist (List.dedup_sublist _)
  have hnd : (f.entries.map InvertedFileEntry.image_id).dedup.Nodup :=
    List.nodup_dedup _
  exact (hle.and hnd).imp (fun hab => lt_of_le_of_ne hab.1 hab.2)

/-- Witness for C2: a Usable two-image file (ids 1 and 3, `N = 8`), with
the spec's example weight functor; the emitted ids are `[1, 3]`. -/
theorem scoreFeature_closed_form_witness :
    (scoreFeature (fun d => max 0 (1 - (d : ℝ) / 4))
      ⟨3, 1, [⟨1, List.replicate 8 false⟩, ⟨3, List.replicate 8 false⟩],
        List.replicate 8 0⟩ (List.replicate 8 0)).map ImageScore.image_id =
      [1, 3] := by
  have h := (scoreFeature_closed_form (fun d => max 0 (1 - (d : ℝ) / 4))
    ⟨3, 1, [⟨1, List.replicate 8 false⟩, ⟨3, List.replicate 8 false⟩],
      List.replicate 8 0⟩ (List.replicate 8 0) rfl rfl (by simp)
    (by simp [List.pairwise_cons])).2.1
  rw [h]
  decide

/-- `GetImageIds` inserts exactly the distinct entry ids into the set. -/
lemma foldl_insert_eq (l : List InvertedFileEntry) :
    ∀ init : Finset ℤ,
      l.foldl (fun s e => insert e.image_id s) init =
        init ∪ (l.map InvertedFileEntry.image_id).toFinset := by
  induction l with
  | nil => intro init; simp
  | cons e rest ih =>
      intro init
      rw [List.foldl_cons, ih]
      ext a
      simp

/-- C9: for a Usable file with non-empty sorted entries, the set of
image ids emitted by `ScoreFeature` equals the set `GetImageIds`
produces (starting from an empty set). -/
theorem scoreFeature_ids_eq_getImageIds (w : ℕ → ℝ) (f : InvertedFile)
    (descriptor : List ℚ) (_hhe : hasHammingEmbedding f = true)
    (hes : entriesSorted f = true) (hne : f.entries ≠ [])
    (hsorted : f.entries.Pairwise (fun a b => a.image_id ≤ b.image_id)) :
    ((scoreFeature w f descriptor).map ImageScore.image_id).toFinset =
      getImageIds f ∅ := by
  rw [scoreFeature_eq_spec w f descriptor hes hne hsorted,
    scoreFeatureSpec_map_ids]
  unfold getImageIds
  rw [foldl_insert_eq]
  ext a
  simp [List.mem_dedup]

/-- Witness for C9: a file with entry ids `[2, 2, 5]`. -/
theorem scoreFeature_ids_eq_getImageIds_witness :
    ((scoreFeature (fun d => max 0 (1 - (d : ℝ) / 4))
        ⟨3, 1, [⟨2, List.replicate 8 false⟩, ⟨2, List.replicate 8 true⟩,
          ⟨5, List.replicate 8 false⟩], List.replicate 8 0⟩
        (List.replicate 8 0)).map ImageScore.image_id).toFinset =
      getImageIds
        ⟨3, 1, [⟨2, List.replicate 8 false⟩, ⟨2, List.replicate 8 true⟩,
          ⟨5, List.replicate 8 false⟩], List.replicate 8 0⟩ ∅ :=
  scoreFeature_ids_eq_getImageIds (fun d => max 0 (1 - (d : ℝ) / 4))
    ⟨3, 1, [⟨2, List.replicate 8 false⟩, ⟨2, List.replicate 8 true⟩,
      ⟨5, List.replicate 8 false⟩], List.replicate 8 0⟩
    (List.replicate 8 0) rfl rfl (by simp) (by simp [List.pairwise_cons])

/-! ## C8: Write / Read round trip -/

/-- A 32-bit word survives the little-endian byte split. -/
lemma bytesToU32_u32ToBytes (x : ℕ) (hx : x < 2 ^ 32) :
    bytesToU32 (u32ToBytes x) = x := by
  simp [u32ToBytes, bytesToU32]
  omega

/-- Reading exactly the prefix length splits an append. -/
lemma readBytes_append (xs rest : List ℕ) :
    readBytes xs.length (xs ++ rest) = some (xs, rest) := by
  simp [readBytes, List.take_left, List.drop_left]

/-- `readU32` undoes `u32ToBytes` at the head of a stream. -/
lemma readU32_append (x : ℕ) (rest : List ℕ) (hx : x < 2 ^ 32) :
    readU32 (u32ToBytes x ++ rest) = some (x, rest) := by
  have h4 : (u32ToBytes x).length = 4 := rfl
  simp only [readU32, ← h4, readBytes_append]
  simp [bytesToU32_u32ToBytes x hx]

/-- `readU32List` undoes a concatenation of 32-bit words. -/
lemma readU32List_append :
    ∀ (l : List ℕ) (rest : List ℕ), (∀ x ∈ l, x < 2 ^ 32) →
      readU32List l.length ((l.map u32ToBytes).flatten ++ rest) = some (l, rest)
  | [], rest, _ => rfl
  | x :: l, rest, h => by
      have hx : x < 2 ^ 32 := h x (by simp)
      simp only [List.map_cons, List.flatten_cons, List.length_cons,
        List.append_assoc]
      rw [readU32List, readU32_append x _ hx]
      simp only [Option.bind_eq_bind, Option.some_bind]
      rw [readU32List_append l rest (fun y hy => h y (by simp [hy]))]
      simp

/-- Unfolding of `byteOfBits` on a cons. -/
lemma byteOfBits_cons (b : Bool) (bs : List Bool) :
    byteOfBits (b :: bs) = (if b then 1 else 0) + 2 * byteOfBits bs := rfl

/-- The low bits of a packed byte are the packed bits. -/
lemma bitsOfByte_byteOfBits :
    ∀ bits : List Bool, bitsOfByte (byteOfBits bits) bits.length = bits
  | [] => rfl
  | b :: bs => by
      have hmod : ((if b then 1 else 0) + 2 * byteOfBits bs) % 2 =
          if b then 1 else 0 := by
        rcases b with _ | _
        · simp
        · simp
      have hdiv : ((if b then 1 else 0) + 2 * byteOfBits bs) / 2 =
          byteOfBits bs := by
        rcases b with _ | _
        · simp
        · simp
          omega
      simp only [byteOfBits_cons, List.length_cons, bitsOfByte, hmod, hdiv,
        bitsOfByte_byteOfBits bs]
      cases b <;> simp

/-- Packing a bit string of length `8k` yields `k` bytes and unpacking
restores it. -/
lemma packBits_spec :
    ∀ (k : ℕ) (bits : List Bool), bits.length = 8 * k →
      (packBits bits).length = k ∧ unpackBits (packBits bits) = bits
  | 0, bits, h => by
      have : bits = [] := List.length_eq_zero.mp (by omega)
      subst this
      exact ⟨rfl, rfl⟩
  | k + 1, bits, h => by
      rcases bits with _ | ⟨b0, _ | ⟨b1, _ | ⟨b2, _ | ⟨b3, _ | ⟨b4, _ |
        ⟨b5, _ | ⟨b6, _ | ⟨b7, rest⟩⟩⟩⟩⟩⟩⟩⟩ <;>
        simp only [List.length_nil, List.length_cons] at h <;>
        try omega
      have hrest : rest.length = 8 * k := by omega
      obtain ⟨hlen, hun⟩ := packBits_spec k rest hrest
      have h8 := bitsOfByte_byteOfBits [b0, b1, b2, b3, b4, b5, b6, b7]
      simp only [List.length_cons, List.length_nil] at h8
      refine ⟨?_, ?_⟩
      · simp [packBits, hlen]
      · simp only [packBits, unpackBits, h8, hun]
        simp

/-- `readU8` at the head of a non-empty stream. -/
lemma readU8_cons (b : ℕ) (s : List ℕ) : readU8 (b :: s) = some (b, s) := rfl

/-- `readU32List` with the count given abstractly. -/
lemma readU32List_append_count (k : ℕ) (l rest : List ℕ)
    (hk : l.length = k) (h : ∀ x ∈ l, x < 2 ^ 32) :
    readU32List k ((l.map u32ToBytes).flatten ++ rest) = some (l, rest) :=
  hk ▸ readU32List_append l rest h

/-- `readEntry` undoes `writeEntry` at the head of a stream. -/
lemma readEntry_append (N : ℕ) (e : StoredEntry) (rest : List ℕ)
    (hid : e.image_id < 2 ^ 32) (hsig : e.signature.length = N)
    (h8 : 8 ∣ N) : readEntry N (writeEntry e ++ rest) = some (e, rest) := by
  obtain ⟨k, rfl⟩ := h8
  have hspec := packBits_spec k e.signature (by omega)
  unfold writeEntry readEntry
  rw [List.append_assoc, readU32_append _ _ hid]
  simp only [Option.bind_eq_bind, Option.some_bind]
  have hk : 8 * k / 8 = k := by omega
  rw [hk, ← hspec.1, readBytes_append]
  simp only [Option.some_bind]
  rw [hspec.2]

/-- `readEntryList` undoes a concatenation of written entries. -/
lemma readEntryList_append (N : ℕ) (h8 : 8 ∣ N) :
    ∀ (es : List StoredEntry) (rest : List ℕ),
      (∀ e ∈ es, e.image_id < 2 ^ 32 ∧ e.signature.length = N) →
      readEntryList N es.length ((es.map writeEntry).flatten ++ rest) =
        some (es, rest)
  | [], _, _ => rfl
  | e :: es, rest, h => by
      obtain ⟨hid, hsig⟩ := h e (by simp)
      simp only [List.map_cons, List.flatten_cons, List.length_cons,
        List.append_assoc]
      rw [readEntryList, readEntry_append N e _ hid hsig h8]
      simp only [Option.bind_eq_bind, Option.some_bind]
      rw [readEntryList_append N h8 es rest (fun e' he' => h e' (by simp [he']))]
      simp

/-- `readEntryList` with the count given abstractly. -/
lemma readEntryList_append_count (N k : ℕ) (h8 : 8 ∣ N)
    (es : List StoredEntry) (rest : List ℕ) (hk : es.length = k)
    (h : ∀ e ∈ es, e.image_id < 2 ^ 32 ∧ e.signature.length = N) :
    readEntryList N k ((es.map writeEntry).flatten ++ rest) = some (es, rest) :=
  hk ▸ readEntryList_append N h8 es rest h

/-- C8: `Write` followed by `Read` restores the file exactly — same
status, same idf bit pattern, same threshold bit patterns, same entries
(ids and signatures, in order) — consuming the whole stream. -/
theorem write_read_roundtrip (N : ℕ) (F : StoredFile) (h8 : 8 ∣ N)
    (hwf : WFStored N F) : readFile N (writeFile F) = some (F, []) := by
  obtain ⟨h1, h2, h3, h4, h5, h6⟩ := hwf
  unfold writeFile readFile
  rw [Nat.mod_eq_of_lt h1, Nat.mod_eq_of_lt h5]
  simp only [List.append_assoc, List.singleton_append, List.cons_append,
    List.nil_append]
  simp only [readU8_cons]
  simp only [Option.bind_eq_bind, Option.some_bind]
  rw [readU32_append _ _ h2]
  simp only [Option.some_bind]
  rw [readU32List_append_count N F.threshold_bits _ h3 h4]
  simp only [Option.some_bind]
  rw [readU32_append _ _ h5]
  simp only [Option.some_bind]
  rw [show (F.entries.map writeEntry).flatten =
      (F.entries.map writeEntry).flatten ++ [] from (List.append_nil _).symm,
    readEntryList_append_count N F.entries.length h8 F.entries [] rfl h6]
  simp

/-- Witness for C8: a concrete `N = 8` file with two entries survives
the round trip. -/
theorem write_read_roundtrip_witness :
    (8 : ℕ) ∣ 8 ∧
    WFStored 8 ⟨3, 12345, [1, 2, 3, 4, 5, 6, 7, 4294967295],
      [⟨7, [true, true, false, false, true, false, true, true]⟩,
        ⟨2147483647, List.replicate 8 false⟩]⟩ ∧
    readFile 8 (writeFile ⟨3, 12345, [1, 2, 3, 4, 5, 6, 7, 4294967295],
      [⟨7, [true, true, false, false, true, false, true, true]⟩,
        ⟨2147483647, List.replicate 8 false⟩]⟩) =
      some (⟨3, 12345, [1, 2, 3, 4, 5, 6, 7, 4294967295],
        [⟨7, [true, true, false, false, true, false, true, true]⟩,
          ⟨2147483647, List.replicate 8 false⟩]⟩, []) :=
  ⟨by decide, by decide,
    write_read_roundtrip 8 _ (by decide) (by decide)⟩

end ColmapRetrieval
